import Mathlib

/-!
# Verification of `scripts/src/tasks/updateApiReadme.js`

A shallow embedding, in Lean 4, of the readme API-table generator found in
`src/scripts/src/tasks/updateApiReadme.js`, together with theorems settling the
frozen claims about it.

Strings manipulated by the JavaScript code are modelled as `List Char`
(JavaScript strings are sequences of UTF-16 code units; every string involved
here is plain text, so a sequence of characters is a faithful model), except
where noted, where Lean `String` is used for convenience and converted with
`String.data`.
-/

namespace UpdateApiReadme

/-! ## Fixed tokens (source lines 13-15) -/

/-- `TOKEN_START` from the source: `<!-- @rnx-kit/api start -->`. -/
def tokenStart : List Char := ("<!-- @rnx-kit/api start -->").data

/-- `TOKEN_END` from the source: `<!-- @rnx-kit/api end -->`. -/
def tokenEnd : List Char := ("<!-- @rnx-kit/api end -->").data

/-- The two-character paragraph break `"\n\n"` looked up by `extractBrief`. -/
def paraBreak : List Char := ("\n\n").data

/-! ## Substring occurrence, first and last match

`String.prototype.indexOf`, and the position of a regular-expression match,
are modelled through the notion of a pattern occurring at an index. -/

/-- `occursAt p s i` states that pattern `p` occurs in `s` starting at index
`i` (the JavaScript `s.indexOf(p)`-style occurrence). -/
def occursAt (p s : List Char) (i : Nat) : Prop := p <+: s.drop i

instance (p s : List Char) (i : Nat) : Decidable (occursAt p s i) :=
  inferInstanceAs (Decidable (p <+: s.drop i))

/-- Index of the first occurrence of `p` in `s` (`s.indexOf(p)`, with `none`
for JavaScript's `-1`). -/
def findFirst (p : List Char) : List Char → Option Nat
  | [] => if p <+: ([] : List Char) then some 0 else none
  | c :: rest =>
    if p <+: (c :: rest) then some 0
    else (findFirst p rest).map (· + 1)

/-- Index of the last occurrence of `p` in `s`. -/
def findLast (p : List Char) : List Char → Option Nat
  | [] => if p <+: ([] : List Char) then some 0 else none
  | c :: rest =>
    match findLast p rest with
    | some i => some (i + 1)
    | none => if p <+: (c :: rest) then some 0 else none

theorem occursAt_cons_succ {p s : List Char} {c : Char} {i : Nat} :
    occursAt p (c :: s) (i + 1) ↔ occursAt p s i := by
  simp [occursAt]

theorem occursAt_zero {p s : List Char} : occursAt p s 0 ↔ p <+: s := by
  simp [occursAt]

/-- `findFirst` returns an actual occurrence, and the least one. -/
theorem findFirst_some {p s : List Char} {i : Nat} (h : findFirst p s = some i) :
    occursAt p s i ∧ ∀ t, t < i → ¬ occursAt p s t := by
  induction s generalizing i with
  | nil =>
    unfold findFirst at h
    split at h
    · rename_i hp
      cases h
      exact ⟨by simpa [occursAt] using hp, by omega⟩
    · cases h
  | cons c rest ih =>
    unfold findFirst at h
    split at h
    · rename_i hp
      cases h
      exact ⟨by simpa [occursAt] using hp, by omega⟩
    · rename_i hp
      cases hfr : findFirst p rest with
      | none => rw [hfr] at h; cases h
      | some j =>
        rw [hfr] at h
        simp only [Option.map_some'] at h
        cases h
        obtain ⟨h1, h2⟩ := ih hfr
        refine ⟨occursAt_cons_succ.mpr h1, ?_⟩
        intro t ht
        cases t with
        | zero => simpa [occursAt] using hp
        | succ t' =>
          rw [occursAt_cons_succ]
          exact h2 t' (by omega)

/-- An occurrence below which there is none is what `findFirst` returns. -/
theorem findFirst_of_least {p s : List Char} {i : Nat} (h1 : occursAt p s i)
    (h2 : ∀ t, t < i → ¬ occursAt p s t) : findFirst p s = some i := by
  induction s generalizing i with
  | nil =>
    have hp : p <+: ([] : List Char) := by simpa [occursAt] using h1
    have hi : i = 0 := by
      by_contra hne
      exact h2 0 (by omega) (by simpa [occursAt] using hp)
    subst hi
    simp [findFirst, hp]
  | cons c rest ih =>
    cases i with
    | zero =>
      have hp : p <+: (c :: rest) := occursAt_zero.mp h1
      simp [findFirst, hp]
    | succ i' =>
      have hp : ¬ p <+: (c :: rest) := by
        have := h2 0 (by omega)
        simpa [occursAt] using this
      have h1' : occursAt p rest i' := occursAt_cons_succ.mp h1
      have h2' : ∀ t, t < i' → ¬ occursAt p rest t := fun t ht hocc =>
        h2 (t + 1) (by omega) (occursAt_cons_succ.mpr hocc)
      simp [findFirst, hp, ih h1' h2']

/-- `findFirst` misses nothing: `none` means no occurrence at all. -/
theorem findFirst_none {p s : List Char} (h : findFirst p s = none) :
    ∀ t, ¬ occursAt p s t := by
  induction s with
  | nil =>
    unfold findFirst at h
    split at h
    · cases h
    · rename_i hp
      intro t
      simpa [occursAt] using hp
  | cons c rest ih =>
    unfold findFirst at h
    split at h
    · cases h
    · rename_i hp
      cases hfr : findFirst p rest with
      | some j => rw [hfr] at h; cases h
      | none =>
        intro t
        cases t with
        | zero => simpa [occursAt] using hp
        | succ t' =>
          rw [occursAt_cons_succ]
          exact ih hfr t'

/-- `findLast p s = none` implies no occurrence of `p` in `s`. -/
theorem findLast_none {p s : List Char} (h : findLast p s = none) :
    ∀ t, ¬ occursAt p s t := by
  induction s with
  | nil =>
    by_cases hpre : p <+: ([] : List Char)
    · simp [findLast, hpre] at h
    · intro t
      simpa [occursAt] using hpre
  | cons c rest ih =>
    cases hfr : findLast p rest with
    | some j => simp [findLast, hfr] at h
    | none =>
      by_cases hpre : p <+: (c :: rest)
      · simp [findLast, hfr, hpre] at h
      · intro t
        cases t with
        | zero => simpa [occursAt] using hpre
        | succ t' =>
          rw [occursAt_cons_succ]
          exact ih hfr t'

/-- For a nonempty pattern, `findLast` returns an actual occurrence, and the
greatest one. -/
theorem findLast_some {p s : List Char} {i : Nat} (hp : p ≠ [])
    (h : findLast p s = some i) :
    occursAt p s i ∧ ∀ t, i < t → ¬ occursAt p s t := by
  induction s generalizing i with
  | nil =>
    by_cases hpre : p <+: ([] : List Char)
    · exact absurd (List.prefix_nil.mp hpre) hp
    · simp [findLast, hpre] at h
  | cons c rest ih =>
    cases hfr : findLast p rest with
    | some j =>
      simp only [findLast, hfr] at h
      have hij : j + 1 = i := by simpa using h
      subst hij
      obtain ⟨h1, h2⟩ := ih hfr
      refine ⟨occursAt_cons_succ.mpr h1, ?_⟩
      intro t ht
      cases t with
      | zero => omega
      | succ t' =>
        rw [occursAt_cons_succ]
        exact h2 t' (by omega)
    | none =>
      by_cases hpre : p <+: (c :: rest)
      · simp only [findLast, hfr, if_pos hpre] at h
        have hi0 : 0 = i := by simpa using h
        subst hi0
        refine ⟨by simpa [occursAt] using hpre, ?_⟩
        intro t ht
        cases t with
        | zero => omega
        | succ t' =>
          rw [occursAt_cons_succ]
          exact findLast_none hfr t'
      · simp [findLast, hfr, hpre] at h

/-- For a nonempty pattern, an occurrence above which there is none is what
`findLast` returns. -/
theorem findLast_of_greatest {p s : List Char} {i : Nat} (hp : p ≠ [])
    (h1 : occursAt p s i) (h2 : ∀ t, i < t → ¬ occursAt p s t) :
    findLast p s = some i := by
  induction s generalizing i with
  | nil =>
    exfalso
    have hpre : p <+: ([] : List Char) := by simpa [occursAt] using h1
    exact hp (List.prefix_nil.mp hpre)
  | cons c rest ih =>
    cases i with
    | zero =>
      have hpre : p <+: (c :: rest) := occursAt_zero.mp h1
      have hnone : findLast p rest = none := by
        cases hfr : findLast p rest with
        | none => rfl
        | some j =>
          exfalso
          obtain ⟨hj, _⟩ := findLast_some hp hfr
          exact h2 (j + 1) (by omega) (occursAt_cons_succ.mpr hj)
      simp [findLast, hnone, hpre]
    | succ i' =>
      have h1' : occursAt p rest i' := occursAt_cons_succ.mp h1
      have h2' : ∀ t, i' < t → ¬ occursAt p rest t := fun t ht hocc =>
        h2 (t + 1) (by omega) (occursAt_cons_succ.mpr hocc)
      simp [findLast, ih h1' h2']

/-! ## Occurrences in concatenations, and overlap of occurrences -/

/-- A nonempty pattern occurrence fits inside the string. -/
theorem occursAt_length {p s : List Char} {i : Nat} (hp : p ≠ [])
    (h : occursAt p s i) : i + p.length ≤ s.length := by
  have hlen : p.length ≤ s.length - i := by
    have := h.length_le
    simpa using this
  have hpos : 0 < p.length := List.length_pos.mpr hp
  omega

theorem prefix_of_prefix_append {p a b : List Char} (h : p <+: a ++ b)
    (hle : p.length ≤ a.length) : p <+: a := by
  have hp : p = (a ++ b).take p.length := List.prefix_iff_eq_take.mp h
  have : (a ++ b).take p.length = a.take p.length := by
    exact List.take_append_of_le_length hle
  rw [this] at hp
  rw [hp]
  exact List.take_prefix _ _

/-- An occurrence entirely inside the left part of a concatenation. -/
theorem occursAt_append_left {p x y : List Char} {t : Nat}
    (h : occursAt p (x ++ y) t) (hle : t + p.length ≤ x.length) :
    occursAt p x t := by
  have hd : (x ++ y).drop t = x.drop t ++ y :=
    List.drop_append_of_le_length (by omega)
  rw [occursAt, hd] at h
  exact prefix_of_prefix_append h (by simp; omega)

/-- An occurrence in the left part occurs in the concatenation. -/
theorem occursAt_append_left' {p x y : List Char} {t : Nat}
    (h : occursAt p x t) (hle : t ≤ x.length) : occursAt p (x ++ y) t := by
  have hd : (x ++ y).drop t = x.drop t ++ y :=
    List.drop_append_of_le_length hle
  rw [occursAt, hd]
  exact h.trans (List.prefix_append _ _)

/-- An occurrence in the right part occurs, shifted, in the concatenation. -/
theorem occursAt_append_right {p y : List Char} (x : List Char) {t : Nat}
    (h : occursAt p y t) : occursAt p (x ++ y) (x.length + t) := by
  have hd : (x ++ y).drop (x.length + t) = y.drop t := by
    rw [← List.drop_drop, List.drop_left]
  rw [occursAt, hd]
  exact h

/-- An occurrence past the left part of a concatenation lies in the right part. -/
theorem occursAt_append_right' {p x y : List Char} {t : Nat}
    (h : occursAt p (x ++ y) t) (hle : x.length ≤ t) :
    occursAt p y (t - x.length) := by
  have hd : (x ++ y).drop t = y.drop (t - x.length) := by
    have ht : t = x.length + (t - x.length) := by omega
    rw [ht, ← List.drop_drop, List.drop_left]
    congr 1
    omega
  rw [occursAt, hd] at h
  exact h

/-- Two strictly overlapping occurrences of `p` exhibit a border of `p`:
a proper suffix of `p` that is also a prefix of `p`. -/
theorem overlap_border {p s : List Char} {a b : Nat} (ha : occursAt p s a)
    (hb : occursAt p s b) (hab : a < b) (hba : b < a + p.length) :
    p.drop (b - a) <+: p := by
  obtain ⟨r, hr⟩ := ha
  have hdb : s.drop b = p.drop (b - a) ++ r := by
    have h1 : s.drop b = (s.drop a).drop (b - a) := by
      rw [List.drop_drop]
      congr 1
      omega
    rw [h1, ← hr, List.drop_append_of_le_length (by omega)]
  rw [occursAt, hdb] at hb
  have hp : p = (p.drop (b - a) ++ r).take p.length := List.prefix_iff_eq_take.mp hb
  have hlen : (p.drop (b - a)).length = p.length - (b - a) := by simp
  have htake : p.take (p.length - (b - a)) = p.drop (b - a) := by
    have h1 : p.take (p.length - (b - a)) =
        ((p.drop (b - a) ++ r).take p.length).take (p.length - (b - a)) := by
      rw [← hp]
    rw [h1, List.take_take]
    have hmin : min (p.length - (b - a)) p.length = p.length - (b - a) := by omega
    rw [hmin]
    have h2 : (p.drop (b - a) ++ r).take (p.length - (b - a)) =
        (p.drop (b - a) ++ r).take (p.drop (b - a)).length := by rw [hlen]
    rw [h2, List.take_left]
  rw [← htake]
  exact List.take_prefix _ _

/-- `p` has no nonempty proper border: no nonempty proper suffix of `p` is a
prefix of `p`. Both marker tokens satisfy this. -/
def borderFree (p : List Char) : Prop :=
  ∀ k, 0 < k → k < p.length → ¬ (p.drop k <+: p)

/-- Executable check for `borderFree`. -/
def borderFreeB (p : List Char) : Bool :=
  (List.range p.length).all fun k => decide (k = 0) || ! decide (p.drop k <+: p)

theorem borderFree_of_borderFreeB {p : List Char} (h : borderFreeB p = true) :
    borderFree p := by
  intro k hk0 hklen hpre
  have := (List.all_eq_true.mp h) k (List.mem_range.mpr hklen)
  simp at this
  rcases this with h0 | hnp
  · omega
  · exact hnp hpre

/-- Occurrences of a border-free pattern cannot strictly overlap. -/
theorem occursAt_disjoint {p s : List Char} {a b : Nat} (hbf : borderFree p)
    (ha : occursAt p s a) (hb : occursAt p s b) (hab : a < b) :
    a + p.length ≤ b := by
  by_contra hcon
  push_neg at hcon
  exact hbf (b - a) (by omega) (by omega) (overlap_border ha hb hab hcon)

theorem tokenStart_borderFree : borderFree tokenStart :=
  borderFree_of_borderFreeB (by decide)

theorem tokenEnd_borderFree : borderFree tokenEnd :=
  borderFree_of_borderFreeB (by decide)

theorem tokenStart_ne_nil : tokenStart ≠ [] := by decide

theorem tokenEnd_ne_nil : tokenEnd ≠ [] := by decide

/-- In `pre ++ p ++ tail` where `pre` is free of `p`, the first occurrence of a
border-free `p` is exactly at `pre.length`. -/
theorem findFirst_append_pattern {p pre tail : List Char} (hbf : borderFree p)
    (hpre : ∀ t, ¬ occursAt p pre t) :
    findFirst p (pre ++ p ++ tail) = some pre.length := by
  have hoccPre : occursAt p (pre ++ p ++ tail) pre.length := by
    have hd : (pre ++ p ++ tail).drop pre.length = p ++ tail := by
      rw [List.append_assoc, List.drop_left]
    rw [occursAt, hd]
    exact List.prefix_append _ _
  apply findFirst_of_least hoccPre
  intro t ht hocc
  by_cases hc : t + p.length ≤ pre.length
  · exact hpre t (occursAt_append_left (by rwa [List.append_assoc] at hocc) (by simpa using hc))
  · have := occursAt_disjoint hbf hocc hoccPre ht
    omega

/-- In `front ++ p ++ post` where `post` is free of `p`, the last occurrence of
a nonempty border-free `p` is exactly at `front.length`. -/
theorem findLast_append_pattern {p front post : List Char} (hp : p ≠ [])
    (hbf : borderFree p) (hpost : ∀ t, ¬ occursAt p post t) :
    findLast p (front ++ p ++ post) = some front.length := by
  have hoccFront : occursAt p (front ++ p ++ post) front.length := by
    have hd : (front ++ p ++ post).drop front.length = p ++ post := by
      rw [List.append_assoc, List.drop_left]
    rw [occursAt, hd]
    exact List.prefix_append _ _
  apply findLast_of_greatest hp hoccFront
  intro t ht hocc
  by_cases hc : front.length + p.length ≤ t
  · refine hpost (t - (front ++ p).length) ?_
    exact occursAt_append_right' hocc (by simp; omega)
  · have := occursAt_disjoint hbf hoccFront hocc ht
    omega

/-! ## `extractBrief` (source lines 21-26) -/

/-- The whitespace stripped by `String.prototype.trim`: ASCII whitespace plus
NBSP, BOM and the line/paragraph separators. (The remaining Unicode `Zs`
code points behave identically under `trim` and are omitted; no claim
distinguishes them.) -/
def isJsWhitespace (c : Char) : Bool :=
  c = ' ' || c = '\t' || c = '\n' || c = '\r' ||
  c = Char.ofNat 11 || c = Char.ofNat 12 ||
  c = Char.ofNat 0xa0 || c = Char.ofNat 0xfeff ||
  c = Char.ofNat 0x2028 || c = Char.ofNat 0x2029

/-- `s.trim()`. -/
def jsTrim (s : List Char) : List Char :=
  ((s.dropWhile isJsWhitespace).reverse.dropWhile isJsWhitespace).reverse

/-- `s.replace(/\n/g, " ")`: every newline becomes a space. -/
def replaceNewlines (s : List Char) : List Char :=
  s.map fun c => if c = '\n' then ' ' else c

/-- `extractBrief` (source lines 21-26): cut at the first `"\n\n"` when its
index is strictly positive (`newParagraph > 0`; JavaScript `indexOf` returns
`-1`, modelled `none`, when absent), then trim and collapse newlines. -/
def extractBrief (summary : List Char) : List Char :=
  let cut :=
    match findFirst paraBreak summary with
    | some newParagraph =>
        if 0 < newParagraph then summary.take newParagraph else summary
    | none => summary
  replaceNewlines (jsTrim cut)

/-! ## Entry sorting and table rendering (source lines 136-164) -/

/-- A catalog entry: `[category, identifier, description]`. -/
abbrev Entry := String × String × String

/-- The comparator `sortByCategory` (source lines 138-143). JavaScript string
comparison is lexicographic on the character sequence, as is Lean's order on
`String`. -/
def sortByCategory (lhs rhs : Entry) : Int :=
  if lhs.1 ≠ rhs.1 then (if lhs.1 < rhs.1 then -1 else 1)
  else if lhs.2.1 = rhs.2.1 then 0
  else if lhs.2.1 < rhs.2.1 then -1 else 1

/-- The ordering realised by `Array.prototype.sort(sortByCategory)`: `lhs` may
precede `rhs` exactly when the comparator is nonpositive. -/
def entryLE (lhs rhs : Entry) : Prop := sortByCategory lhs rhs ≤ 0

instance : DecidableRel entryLE := fun a b =>
  inferInstanceAs (Decidable (sortByCategory a b ≤ 0))

theorem entryLE_iff {a b : Entry} :
    entryLE a b ↔ a.1 < b.1 ∨ (a.1 = b.1 ∧ a.2.1 ≤ b.2.1) := by
  unfold entryLE sortByCategory
  by_cases h1 : a.1 = b.1
  · by_cases h2 : a.2.1 = b.2.1
    · simp [h1, h2]
    · by_cases h3 : a.2.1 < b.2.1
      · simp [h1, h2, h3, le_of_lt h3]
      · have hba : b.2.1 < a.2.1 :=
          lt_of_le_of_ne (le_of_not_lt h3) (Ne.symm h2)
        simp [h1, h2, h3, not_le.mpr hba]
  · by_cases h4 : a.1 < b.1
    · simp [h1, h4]
    · simp [h1, h4]

instance : IsTotal Entry entryLE :=
  ⟨fun a b => by
    rw [entryLE_iff, entryLE_iff]
    rcases lt_trichotomy a.1 b.1 with h | h | h
    · exact Or.inl (Or.inl h)
    · rcases le_total a.2.1 b.2.1 with h2 | h2
      · exact Or.inl (Or.inr ⟨h, h2⟩)
      · exact Or.inr (Or.inr ⟨h.symm, h2⟩)
    · exact Or.inr (Or.inl h)⟩

instance : IsTrans Entry entryLE :=
  ⟨fun a b c hab hbc => by
    rw [entryLE_iff] at hab hbc ⊢
    rcases hab with h1 | ⟨h1, h1'⟩ <;> rcases hbc with h2 | ⟨h2, h2'⟩
    · exact Or.inl (lt_trans h1 h2)
    · exact Or.inl (h2 ▸ h1)
    · exact Or.inl (h1 ▸ h2)
    · exact Or.inr ⟨h1.trans h2, le_trans h1' h2'⟩⟩

/-- `entries.sort(sortByCategory)`: sorting with a consistent comparator
produces a list ordered by nonpositive comparator value; modelled by
insertion sort over `entryLE`. -/
def sortEntries (entries : List Entry) : List Entry :=
  List.insertionSort entryLE entries

/-- Models the external `markdown-table` package (a dependency of the script,
not code of this repository): a deterministic rendering of the rows, one
pipe-delimited line per row. The claims below depend only on it being a
deterministic function of the row list that copies cell text into its
output. -/
def markdownTable (rows : List (List String)) : String :=
  String.intercalate "\n"
    (rows.map fun row => "| " ++ String.intercalate " | " row ++ " |")

def entryRow (e : Entry) : List String := [e.1, e.2.1, e.2.2]

/-- The types table (source lines 150-156): empty catalog renders as the empty
string, otherwise the header row followed by the sorted entries. -/
def typesTable (exportedTypes : List Entry) : String :=
  if exportedTypes = [] then ""
  else markdownTable (["Category", "Type Name", "Description"] ::
    (sortEntries exportedTypes).map entryRow)

/-- The functions table (source lines 158-164). -/
def functionsTable (exportedFunctions : List Entry) : String :=
  if exportedFunctions = [] then ""
  else markdownTable (["Category", "Function", "Description"] ::
    (sortEntries exportedFunctions).map entryRow)

/-! ## Claim C2 -/

/-- **C2, counterexample.** The claim says that whenever the summary contains
the blank-line break `"\n\n"`, only the (trimmed, collapsed) text before the
first break is returned. For the summary `"\n\nSecond paragraph."` the first
break is at index 0, so the claim demands the empty result; the code
(`newParagraph > 0`) instead keeps the whole summary and returns
`"Second paragraph."`. -/
theorem extractBrief_break_at_start_counterexample :
    findFirst paraBreak ("\n\nSecond paragraph.").data = some 0 ∧
    extractBrief ("\n\nSecond paragraph.").data = ("Second paragraph.").data ∧
    extractBrief ("\n\nSecond paragraph.").data ≠
      replaceNewlines (jsTrim ((("\n\nSecond paragraph.").data).take 0)) := by
  refine ⟨by decide, by decide, by decide⟩

/-- **C2, amended.** Brief extraction returns: when the summary contains a
blank-line paragraph break at a strictly positive index (that is, some text
precedes the first break), only the text before the first such break;
otherwise — no break at all, or a break at the very start — the whole
summary; in both cases trimmed and with internal line breaks collapsed to
single spaces. In particular `"First line.\n\nSecond paragraph."` yields
`"First line."` and `"Single line only."` is returned whole. -/
theorem extractBrief_amended (s : List Char) :
    (∀ i, findFirst paraBreak s = some i → 0 < i →
      extractBrief s = replaceNewlines (jsTrim (s.take i))) ∧
    (findFirst paraBreak s = none →
      extractBrief s = replaceNewlines (jsTrim s)) ∧
    (findFirst paraBreak s = some 0 →
      extractBrief s = replaceNewlines (jsTrim s)) ∧
    extractBrief ("First line.\n\nSecond paragraph.").data = ("First line.").data ∧
    extractBrief ("Single line only.").data = ("Single line only.").data := by
  refine ⟨?_, ?_, ?_, by decide, by decide⟩
  · intro i hi hpos
    simp [extractBrief, hi, hpos]
  · intro h
    simp [extractBrief, h]
  · intro h
    simp [extractBrief, h]

/-- **C2, witness.** The amended theorem applied to the concrete summary
`"First line.\n\nSecond paragraph."`, whose first break sits at index 11. -/
theorem extractBrief_amended_witness :
    extractBrief ("First line.\n\nSecond paragraph.").data =
      replaceNewlines (jsTrim ((("First line.\n\nSecond paragraph.").data).take 11)) :=
  (extractBrief_amended (("First line.\n\nSecond paragraph.").data)).1 11
    (by decide) (by decide)

/-! ## Claim C3 -/

/-- **C3.** Entries appearing in a rendered table are listed in the order
produced by `sortEntries` (second conjunct), and in that order any two
entries with different categories appear with the lexically smaller category
first, while entries sharing a category appear with the lexically smaller
identifier first (first conjunct, stated for every pair at increasing
positions via `List.Pairwise`). -/
theorem sorted_tables (entries : List Entry) :
    List.Pairwise
      (fun a b : Entry =>
        (a.1 ≠ b.1 → a.1 < b.1) ∧ (a.1 = b.1 → a.2.1 ≠ b.2.1 → a.2.1 < b.2.1))
      (sortEntries entries) ∧
    (entries ≠ [] →
      typesTable entries =
        markdownTable (["Category", "Type Name", "Description"] ::
          (sortEntries entries).map entryRow) ∧
      functionsTable entries =
        markdownTable (["Category", "Function", "Description"] ::
          (sortEntries entries).map entryRow)) := by
  constructor
  · have hs : List.Sorted entryLE (sortEntries entries) :=
      List.sorted_insertionSort entryLE entries
    refine List.Pairwise.imp ?_ hs
    intro a b hab
    rw [entryLE_iff] at hab
    constructor
    · intro hne
      rcases hab with h | ⟨h, _⟩
      · exact h
      · exact absurd h hne
    · intro heq hne
      rcases hab with h | ⟨_, h2⟩
      · exact absurd heq (ne_of_lt h)
      · exact lt_of_le_of_ne h2 hne
  · intro h
    exact ⟨by simp [typesTable, h], by simp [functionsTable, h]⟩

/-- **C3, witness.** The table-shape conjunct applied to a concrete non-empty
catalog. -/
theorem sorted_tables_witness :
    typesTable [("cli", "Args", "Command-line arguments")] =
      markdownTable (["Category", "Type Name", "Description"] ::
        (sortEntries [("cli", "Args", "Command-line arguments")]).map entryRow) :=
  ((sorted_tables [("cli", "Args", "Command-line arguments")]).2 (by decide)).1

/-! ## Function parameters (source lines 109-130, 207-214) -/

/-- The parameter-pattern shapes distinguished by the switch of
`renderParamNode` (source lines 113-130). Fields the source never reads — an
assignment pattern's default-value expression, a member expression's object
and property, an array pattern's elements, an object pattern's properties, a
parameter property's inner parameter — are omitted: the switch only ever
inspects `node.type`, `node.left` and `node.argument`. -/
inductive ParamNode where
  | identifier (name : String)
  | memberExpression
  | restElement (argument : ParamNode)
  | assignmentPattern (left : ParamNode)
  | arrayPattern
  | objectPattern
  | tsParameterProperty

/-- `renderParamNode` (source lines 113-130); the thrown `Error` is modelled
by `Except.error` carrying the error message. -/
def renderParamNode : ParamNode → Except String String
  | .arrayPattern => .ok "[]"
  | .assignmentPattern left => renderParamNode left
  | .identifier name => .ok name
  | .memberExpression => .error "Unsupported parameter type: MemberExpression"
  | .objectPattern => .ok "{}"
  | .restElement argument => do
      let inner ← renderParamNode argument
      pure ("..." ++ inner)
  | .tsParameterProperty => .error "Unsupported parameter type: TSParameterProperty"

/-- A parameter built entirely from the five renderable shapes: identifier,
default-valued pattern, array pattern, object pattern and rest element —
recursively, as the grammar of function parameters guarantees (a member
expression or parameter property can never nest inside a parsed function
parameter list). -/
def supportedParam : ParamNode → Bool
  | .identifier _ => true
  | .arrayPattern => true
  | .objectPattern => true
  | .assignmentPattern left => supportedParam left
  | .restElement argument => supportedParam argument
  | .memberExpression => false
  | .tsParameterProperty => false

/-- Modelled from the spec's words (§4.2): the claimed per-shape rendering —
an identifier renders as its name, a default-valued parameter as its
underlying pattern, an array pattern as `[]`, an object pattern as `{}`, a rest parameter as `...` before its inner pattern's rendering.
The two unsupported shapes have no defined text; this comparator maps them
to `""`, and is only ever compared with the code on supported shapes. -/
def renderParamSpec : ParamNode → String
  | .identifier name => name
  | .assignmentPattern left => renderParamSpec left
  | .arrayPattern => "[]"
  | .objectPattern => "{}"
  | .restElement argument => "..." ++ renderParamSpec argument
  | .memberExpression => ""
  | .tsParameterProperty => ""

theorem renderParamNode_supported {p : ParamNode} (h : supportedParam p = true) :
    renderParamNode p = .ok (renderParamSpec p) := by
  induction p with
  | identifier name => rfl
  | memberExpression => simp [supportedParam] at h
  | restElement argument ih =>
    simp only [supportedParam] at h
    simp [renderParamNode, renderParamSpec, ih h]
  | assignmentPattern left ih =>
    simp only [supportedParam] at h
    simp [renderParamNode, renderParamSpec, ih h]
  | arrayPattern => rfl
  | objectPattern => rfl
  | tsParameterProperty => simp [supportedParam] at h

/-- The backquote character wrapping a rendered function signature. -/
def backquote : String := String.singleton (Char.ofNat 96)

/-- The display identifier of an exported function (source lines 207-212):
`name(p1, p2, ...)` wrapped in backquotes. -/
def functionIdentifier (name : String) (params : List ParamNode) :
    Except String String := do
  let rendered ← params.mapM renderParamNode
  pure (backquote ++ name ++ "(" ++ String.intercalate ", " rendered ++ ")" ++ backquote)

theorem mapM_renderParamNode_supported {params : List ParamNode}
    (h : ∀ p ∈ params, supportedParam p = true) :
    params.mapM renderParamNode = .ok (params.map renderParamSpec) := by
  induction params with
  | nil => rfl
  | cons p rest ih =>
    rw [List.mapM_cons, renderParamNode_supported (h p (by simp)),
      ih (fun q hq => h q (by simp [hq]))]
    rfl

/-! ## Claim C4 -/

/-- **C4.** For an exported function whose parameters are all built from the
five supported shapes, the display signature is `name(p1, p2, ...)` wrapped
in backquotes, each parameter rendered per its shape as given by
`renderParamSpec` (identifier → its name, default value stripped, `[]`, `{}`,
`...` prefix for rest); in particular `f(a, [b, c] = [], ...rest)` renders as
`` `f(a, [], ...rest)` ``. -/
theorem functionIdentifier_rendering (name : String) (params : List ParamNode)
    (h : ∀ p ∈ params, supportedParam p = true) :
    functionIdentifier name params =
      .ok (backquote ++ name ++ "(" ++
        String.intercalate ", " (params.map renderParamSpec) ++ ")" ++ backquote) ∧
    functionIdentifier "f"
        [.identifier "a", .assignmentPattern .arrayPattern,
          .restElement (.identifier "rest")] =
      .ok "`f(a, [], ...rest)`" := by
  constructor
  · rw [functionIdentifier, mapM_renderParamNode_supported h]
    rfl
  · rfl

/-- **C4, witness.** The rendering theorem applied to the concrete function
`f(a, [b, c] = [], ...rest)`. -/
theorem functionIdentifier_rendering_witness :
    functionIdentifier "f"
        [.identifier "a", .assignmentPattern .arrayPattern,
          .restElement (.identifier "rest")] =
      .ok "`f(a, [], ...rest)`" :=
  (functionIdentifier_rendering "f"
    [.identifier "a", .assignmentPattern .arrayPattern,
      .restElement (.identifier "rest")] (by decide)).2

/-! ## Claim C5 -/

/-- **C5.** Rendering a parameter fails exactly on the two unsupported shapes:
`renderParamNode` succeeds precisely on parameters built from the five
supported shapes (first conjunct, an equality of Booleans, so failure occurs
exactly when a member expression or parameter property is reached through
default-value unwrapping or rest nesting — and a parsed function parameter
list can only contain those two shapes at top level); a member-expression
pattern and a property-injection (`TSParameterProperty`) pattern themselves
always raise, with the source's error message (remaining conjuncts). -/
theorem renderParamNode_error_iff :
    (∀ p : ParamNode, (renderParamNode p).isOk = supportedParam p) ∧
    renderParamNode .memberExpression =
      .error "Unsupported parameter type: MemberExpression" ∧
    renderParamNode .tsParameterProperty =
      .error "Unsupported parameter type: TSParameterProperty" := by
  refine ⟨?_, rfl, rfl⟩
  intro p
  induction p with
  | identifier name => rfl
  | memberExpression => rfl
  | restElement argument ih =>
    rw [supportedParam, ← ih]
    cases hr : renderParamNode argument with
    | ok v => simp [renderParamNode, hr, Except.isOk, Except.toBool]
    | error e => simp [renderParamNode, hr, Except.isOk, Except.toBool]
  | assignmentPattern left ih =>
    rw [supportedParam, ← ih]
    rfl
  | arrayPattern => rfl
  | objectPattern => rfl
  | tsParameterProperty => rfl

/-! ## The readme merge (source lines 136-177)

`readme.replace(regexp, template)` treats the template as a JavaScript
replacement string: `$$`, `$&` (matched text), `` $` `` (text before the
match), `$'` (text after the match) and `$1`/`$01` (the single capture
group) are substituted; any other `$` is literal. -/

/-- The backquote character. -/
def backquoteChar : Char := Char.ofNat 96

/-- The single-quote character. -/
def singleQuoteChar : Char := Char.ofNat 39

/-- Scanner state for the replacement-template substitution: nothing pending,
a pending `$`, or a pending `$0`, whose meaning depends on the next
character. -/
inductive SubState where
  | normal
  | sawDollar
  | sawDollarZero

/-- JavaScript `GetSubstitution` for a replacement template, specialised to a
regular expression with exactly one unnamed capture group (so `$n` with
`n ≥ 2` and `$<...>` are literal): `matched` is the matched text, `before`
and `after` the text surrounding the match, `group1` the capture. `$$` is a
literal dollar, `$&`/`` $` ``/`$'` substitute the matched/preceding/following
text, `$1` and `$01` substitute the capture group, and a `$` that heads no
valid substitution is literal. Implemented as a one-character scanner. -/
def getSubstitutionAux (matched before after group1 : List Char) :
    SubState → List Char → List Char
  | .normal, [] => []
  | .sawDollar, [] => ['$']
  | .sawDollarZero, [] => ['$', '0']
  | .normal, c :: rest =>
    if c = '$' then getSubstitutionAux matched before after group1 .sawDollar rest
    else c :: getSubstitutionAux matched before after group1 .normal rest
  | .sawDollar, c :: rest =>
    if c = '$' then
      '$' :: getSubstitutionAux matched before after group1 .normal rest
    else if c = '&' then
      matched ++ getSubstitutionAux matched before after group1 .normal rest
    else if c = backquoteChar then
      before ++ getSubstitutionAux matched before after group1 .normal rest
    else if c = singleQuoteChar then
      after ++ getSubstitutionAux matched before after group1 .normal rest
    else if c = '1' then
      group1 ++ getSubstitutionAux matched before after group1 .normal rest
    else if c = '0' then
      getSubstitutionAux matched before after group1 .sawDollarZero rest
    else '$' :: c :: getSubstitutionAux matched before after group1 .normal rest
  | .sawDollarZero, c :: rest =>
    if c = '1' then
      group1 ++ getSubstitutionAux matched before after group1 .normal rest
    else if c = '$' then
      '$' :: '0' :: getSubstitutionAux matched before after group1 .sawDollar rest
    else '$' :: '0' :: c :: getSubstitutionAux matched before after group1 .normal rest

/-- Substitution of a whole replacement template. -/
def getSubstitution (matched before after group1 template : List Char) :
    List Char :=
  getSubstitutionAux matched before after group1 .normal template

/-- A dollar-free template is substituted to itself. -/
theorem getSubstitution_no_dollar {m b a g : List Char} {t : List Char}
    (h : '$' ∉ t) : getSubstitution m b a g t = t := by
  unfold getSubstitution
  induction t with
  | nil => rfl
  | cons c rest ih =>
    have hc : ¬ c = '$' := fun hc => h (by simp [hc])
    have hrest : '$' ∉ rest := fun hr => h (List.mem_cons_of_mem c hr)
    simp [getSubstitutionAux, hc, ih hrest]

/-- A dollar-free prefix of the template passes through unchanged. -/
theorem getSubstitution_append_no_dollar {m b a g : List Char} {u : List Char}
    (v : List Char) (h : '$' ∉ u) :
    getSubstitution m b a g (u ++ v) = u ++ getSubstitution m b a g v := by
  unfold getSubstitution
  induction u with
  | nil => rfl
  | cons c rest ih =>
    have hc : ¬ c = '$' := fun hc => h (by simp [hc])
    have hrest : '$' ∉ rest := fun hr => h (List.mem_cons_of_mem c hr)
    simp [getSubstitutionAux, hc, ih hrest]

/-- A character that can combine with a preceding `$` (or `$0`) into a
substitution. -/
def escapeStarter (c : Char) : Bool :=
  c = '$' || c = '&' || c = backquoteChar || c = singleQuoteChar ||
    (48 ≤ c.toNat && c.toNat ≤ 57)

theorem escapeStarter_false_elim {c : Char} (h : escapeStarter c = false) :
    ¬ c = '$' ∧ ¬ c = '&' ∧ ¬ c = backquoteChar ∧ ¬ c = singleQuoteChar ∧
      ¬ c = '1' ∧ ¬ c = '0' := by
  simp only [escapeStarter, Bool.or_eq_false_iff, decide_eq_false_iff_not,
    Bool.and_eq_false_iff, Nat.not_le] at h
  obtain ⟨⟨⟨⟨hd, ha⟩, hb⟩, hq⟩, hdig⟩ := h
  refine ⟨hd, ha, hb, hq, ?_, ?_⟩
  · intro h1
    subst h1
    rcases hdig with h | h <;> exact absurd h (by decide)
  · intro h0
    subst h0
    rcases hdig with h | h <;> exact absurd h (by decide)

/-- Substitution never touches a dollar-free suffix whose first character
cannot combine with a pending `$`: the suffix survives verbatim at the end,
whatever the scanner state. -/
theorem getSubstitutionAux_frame (m b a g : List Char) (u v : List Char)
    (hv : '$' ∉ v) (hhead : ∀ c w, v = c :: w → escapeStarter c = false) :
    ∀ st, ∃ x, getSubstitutionAux m b a g st (u ++ v) = x ++ v := by
  induction u with
  | nil =>
    intro st
    cases st with
    | normal => exact ⟨[], getSubstitution_no_dollar hv⟩
    | sawDollar =>
      cases v with
      | nil => exact ⟨['$'], rfl⟩
      | cons c w =>
        obtain ⟨hd, ha, hb, hq, h1, h0⟩ := escapeStarter_false_elim (hhead c w rfl)
        have hw : '$' ∉ w := fun hm => hv (List.mem_cons_of_mem c hm)
        refine ⟨['$'], ?_⟩
        have hrest := getSubstitution_no_dollar (m := m) (b := b) (a := a) (g := g) hw
        unfold getSubstitution at hrest
        simp [getSubstitutionAux, hd, ha, hb, hq, h1, h0, hrest]
    | sawDollarZero =>
      cases v with
      | nil => exact ⟨['$', '0'], rfl⟩
      | cons c w =>
        obtain ⟨hd, _, _, _, h1, _⟩ := escapeStarter_false_elim (hhead c w rfl)
        have hw : '$' ∉ w := fun hm => hv (List.mem_cons_of_mem c hm)
        refine ⟨['$', '0'], ?_⟩
        have hrest := getSubstitution_no_dollar (m := m) (b := b) (a := a) (g := g) hw
        unfold getSubstitution at hrest
        simp [getSubstitutionAux, hd, h1, hrest]
  | cons c u' ih =>
    intro st
    cases st with
    | normal =>
      by_cases hc : c = '$'
      · subst hc
        obtain ⟨x, hx⟩ := ih .sawDollar
        exact ⟨x, by simp [getSubstitutionAux, hx]⟩
      · obtain ⟨x, hx⟩ := ih .normal
        exact ⟨c :: x, by simp [getSubstitutionAux, hc, hx]⟩
    | sawDollar =>
      by_cases hd : c = '$'
      · subst hd
        obtain ⟨x, hx⟩ := ih .normal
        exact ⟨'$' :: x, by simp [getSubstitutionAux, hx]⟩
      · by_cases ha : c = '&'
        · subst ha
          obtain ⟨x, hx⟩ := ih .normal
          exact ⟨m ++ x, by simp [getSubstitutionAux, hx]⟩
        · by_cases hb : c = backquoteChar
          · subst hb
            obtain ⟨x, hx⟩ := ih .normal
            exact ⟨b ++ x, by simp [getSubstitutionAux, hd, ha, hx]⟩
          · by_cases hq : c = singleQuoteChar
            · subst hq
              obtain ⟨x, hx⟩ := ih .normal
              exact ⟨a ++ x, by simp [getSubstitutionAux, hd, ha, hb, hx]⟩
            · by_cases h1 : c = '1'
              · subst h1
                obtain ⟨x, hx⟩ := ih .normal
                exact ⟨g ++ x, by simp [getSubstitutionAux, hd, ha, hb, hq, hx]⟩
              · by_cases h0 : c = '0'
                · subst h0
                  obtain ⟨x, hx⟩ := ih .sawDollarZero
                  exact ⟨x, by simp [getSubstitutionAux, hd, ha, hb, hq, h1, hx]⟩
                · obtain ⟨x, hx⟩ := ih .normal
                  exact ⟨'$' :: c :: x,
                    by simp [getSubstitutionAux, hd, ha, hb, hq, h1, h0, hx]⟩
    | sawDollarZero =>
      by_cases h1 : c = '1'
      · subst h1
        obtain ⟨x, hx⟩ := ih .normal
        exact ⟨g ++ x, by simp [getSubstitutionAux, hx]⟩
      · by_cases hd : c = '$'
        · subst hd
          obtain ⟨x, hx⟩ := ih .sawDollar
          exact ⟨'$' :: '0' :: x, by simp [getSubstitutionAux, h1, hx]⟩
        · obtain ⟨x, hx⟩ := ih .normal
          exact ⟨'$' :: '0' :: c :: x, by simp [getSubstitutionAux, h1, hd, hx]⟩

/-- The frame property for a full template substitution. -/
theorem getSubstitution_frame (m b a g : List Char) (u v : List Char)
    (hv : '$' ∉ v) (hhead : ∀ c w, v = c :: w → escapeStarter c = false) :
    ∃ x, getSubstitution m b a g (u ++ v) = x ++ v :=
  getSubstitutionAux_frame m b a g u v hv hhead .normal

/-- `[types, functions].filter(Boolean).join("\n\n")` (source lines 169-171):
empty table strings are dropped (the empty string is falsy), the remaining
ones joined by a blank line. -/
def joinTables (types functions : String) : List Char :=
  (String.intercalate "\n\n" (([types, functions]).filter (fun s => !(s == "")))).data

/-- A blank line: two newline characters. -/
def nl2 : List Char := ['\n', '\n']

/-- The replacement template built at source lines 169-171: the start token, a
blank line, the joined tables, a blank line, the end token. -/
def apiTemplate (exportedTypes exportedFunctions : List Entry) : List Char :=
  tokenStart ++ nl2 ++
    joinTables (typesTable exportedTypes) (functionsTable exportedFunctions) ++
    nl2 ++ tokenEnd

/-- `readme.replace(new RegExp(TOKEN_START + "([^]+)" + TOKEN_END), template)`
(source lines 167-172; the tokens contain no regular-expression
metacharacter). The pattern matches starting at the first start-token
occurrence that an end token eventually follows — the leftmost match — and,
`[^]+` being greedy, runs through the last end-token occurrence, requiring
at least one character between the tokens; the template undergoes
replacement-string substitution against the match. Without a match the text
is returned unchanged. -/
def replaceTokenRegion (template readme : List Char) : List Char :=
  match findFirst tokenStart readme, findLast tokenEnd readme with
  | some i, some j =>
    if i + tokenStart.length + 1 ≤ j then
      let matched := (readme.drop i).take (j + tokenEnd.length - i)
      let before := readme.take i
      let after := readme.drop (j + tokenEnd.length)
      let group1 :=
        (readme.drop (i + tokenStart.length)).take (j - (i + tokenStart.length))
      before ++ getSubstitution matched before after group1 template ++ after
    else readme
  | _, _ => readme

/-- `updateReadme` (source lines 136-177), as a function of the current readme
text: returns the new text together with whether the file is written —
exactly when the new text differs from the old (source lines 174-176). -/
def updateReadme (readme : List Char)
    (exportedTypes exportedFunctions : List Entry) : List Char × Bool :=
  let updatedReadme :=
    replaceTokenRegion (apiTemplate exportedTypes exportedFunctions) readme
  (updatedReadme, decide (updatedReadme ≠ readme))

/-! ## Occurrences in the pieces cut out by a match -/

theorem occursAt_drop {p s : List Char} {k t : Nat} :
    occursAt p (s.drop k) t ↔ occursAt p s (k + t) := by
  rw [occursAt, occursAt, List.drop_drop, Nat.add_comm]

/-- Below the first occurrence there is no occurrence at all: the prefix cut
before a least occurrence is pattern-free. -/
theorem take_no_occurrence {p s : List Char} {i : Nat} (hp : p ≠ [])
    (hmin : ∀ t, t < i → ¬ occursAt p s t) : ∀ t, ¬ occursAt p (s.take i) t := by
  intro t hocc
  have hb := occursAt_length hp hocc
  have hlen : (s.take i).length ≤ i := by simp
  have hplen : 0 < p.length := List.length_pos.mpr hp
  have hs : occursAt p s t := by
    have := occursAt_append_left' (y := s.drop i) hocc (by omega)
    rwa [List.take_append_drop] at this
  exact hmin t (by omega) hs

/-- Above the greatest occurrence there is none: the suffix cut after it is
pattern-free. -/
theorem drop_no_occurrence {p s : List Char} {j k : Nat} (hk : j < k)
    (hmax : ∀ t, j < t → ¬ occursAt p s t) : ∀ t, ¬ occursAt p (s.drop k) t :=
  fun t hocc => hmax (k + t) (by omega) (occursAt_drop.mp hocc)

/-- A template that starts with the start token, ends with the end token, and
is long enough to keep them one character apart is a fixed point of the
region replacement once substituted into a document, provided it contains no
dollar character (so that replacement-string substitution leaves it
alone). -/
theorem replaceTokenRegion_idem (template readme : List Char)
    (hnd : '$' ∉ template)
    (htS : ∃ mid1, template = tokenStart ++ mid1)
    (htE : ∃ mid2, template = mid2 ++ tokenEnd)
    (hlen : tokenStart.length + tokenEnd.length + 1 ≤ template.length) :
    replaceTokenRegion template (replaceTokenRegion template readme) =
      replaceTokenRegion template readme := by
  obtain ⟨mid1, hS⟩ := htS
  obtain ⟨mid2, hE⟩ := htE
  cases hf : findFirst tokenStart readme with
  | none =>
    conv_lhs => rw [replaceTokenRegion]
    rw [replaceTokenRegion]
    simp only [hf]
  | some i =>
    cases hl : findLast tokenEnd readme with
    | none =>
      conv_lhs => rw [replaceTokenRegion]
      rw [replaceTokenRegion]
      simp only [hf, hl]
    | some j =>
      by_cases hcond : i + tokenStart.length + 1 ≤ j
      · -- run 1 matches: its output is `before ++ template ++ after`
        have hrepl1 : replaceTokenRegion template readme =
            readme.take i ++ template ++ readme.drop (j + tokenEnd.length) := by
          rw [replaceTokenRegion]
          simp only [hf, hl, if_pos hcond]
          rw [getSubstitution_no_dollar hnd]
        rw [hrepl1]
        -- the prefix has no start token, the suffix no end token
        have hpre : ∀ t, ¬ occursAt tokenStart (readme.take i) t :=
          take_no_occurrence tokenStart_ne_nil (findFirst_some hf).2
        have hpost : ∀ t, ¬ occursAt tokenEnd (readme.drop (j + tokenEnd.length)) t :=
          drop_no_occurrence (Nat.lt_add_of_pos_right (by decide))
            (findLast_some tokenEnd_ne_nil hl).2
        have hff2 : findFirst tokenStart
            (readme.take i ++ template ++ readme.drop (j + tokenEnd.length)) =
            some (readme.take i).length := by
          have := @findFirst_append_pattern tokenStart (readme.take i)
            (mid1 ++ readme.drop (j + tokenEnd.length))
            tokenStart_borderFree hpre
          rw [hS]
          simpa [List.append_assoc] using this
        have hfl2 : findLast tokenEnd
            (readme.take i ++ template ++ readme.drop (j + tokenEnd.length)) =
            some ((readme.take i).length + mid2.length) := by
          have := @findLast_append_pattern tokenEnd (readme.take i ++ mid2)
            (readme.drop (j + tokenEnd.length))
            tokenEnd_ne_nil tokenEnd_borderFree hpost
          rw [hE]
          simpa [List.append_assoc] using this
        have hmid2len : tokenStart.length + 1 ≤ mid2.length := by
          have : template.length = mid2.length + tokenEnd.length := by simp [hE]
          omega
        rw [replaceTokenRegion]
        simp only [hff2, hfl2]
        rw [if_pos (by omega)]
        rw [getSubstitution_no_dollar hnd]
        -- the three pieces are recovered verbatim
        have htake : (readme.take i ++ template ++ readme.drop (j + tokenEnd.length)).take
            (readme.take i).length = readme.take i := by
          rw [List.append_assoc, List.take_left]
        have hdrop : (readme.take i ++ template ++ readme.drop (j + tokenEnd.length)).drop
            ((readme.take i).length + mid2.length + tokenEnd.length) =
            readme.drop (j + tokenEnd.length) := by
          have h1 : readme.take i ++ template ++ readme.drop (j + tokenEnd.length) =
              (readme.take i ++ mid2 ++ tokenEnd) ++ readme.drop (j + tokenEnd.length) := by
            rw [hE]
            simp [List.append_assoc]
          have h2 : (readme.take i).length + mid2.length + tokenEnd.length =
              (readme.take i ++ mid2 ++ tokenEnd).length := by
            simp only [List.length_append]
          rw [h1, h2, List.drop_left]
        rw [htake, hdrop]
      · conv_lhs => rw [replaceTokenRegion]
        rw [replaceTokenRegion]
        simp only [hf, hl, if_neg hcond]

/-! ## Claim C6 -/

/-- A matching marker pair, as the merge's regular expression requires: a
start token followed by an end token at least one character past it. -/
def hasMarkerPair (s : List Char) : Prop :=
  ∃ i j, occursAt tokenStart s i ∧ occursAt tokenEnd s j ∧
    i + tokenStart.length + 1 ≤ j

/-- **C6.** A document with no matching start/end marker pair is left
unchanged by the merge, and no write happens, whatever the catalogs: the
replacement pattern does not match and the identity check skips the write.
No error is modelled because the source raises none on this path. -/
theorem no_marker_pair_no_write (readme : List Char)
    (h : ¬ hasMarkerPair readme)
    (exportedTypes exportedFunctions : List Entry) :
    updateReadme readme exportedTypes exportedFunctions = (readme, false) := by
  have hrepl : replaceTokenRegion
      (apiTemplate exportedTypes exportedFunctions) readme = readme := by
    rw [replaceTokenRegion]
    cases hf : findFirst tokenStart readme with
    | none => rfl
    | some i =>
      cases hl : findLast tokenEnd readme with
      | none => rfl
      | some j =>
        simp only [hf, hl]
        rw [if_neg]
        intro hcond
        exact h ⟨i, j, (findFirst_some hf).1,
          (findLast_some tokenEnd_ne_nil hl).1, hcond⟩
  simp [updateReadme, hrepl]

/-- **C6, witness.** A document without any marker. -/
theorem no_marker_pair_no_write_witness :
    updateReadme ("no markers here").data [] [] =
      (("no markers here").data, false) := by
  apply no_marker_pair_no_write
  rintro ⟨i, j, hi, hj, hle⟩
  have hlen := occursAt_length tokenStart_ne_nil hi
  have h27 : tokenStart.length = 27 := by decide
  have h15 : (("no markers here").data).length = 15 := by decide
  omega

/-! ## Claim C10 -/

/-- **C10.** When the document's start marker is immediately followed by the
end marker — every start-token occurrence sits at `i` and every end-token
occurrence at `i + tokenStart.length`, so the region between the markers is
empty — the merge leaves the document unchanged and performs no write even
for non-empty catalogs: the pattern `([^]+)` requires at least one character
between the markers. -/
theorem adjacent_markers_no_write (readme : List Char) (i : Nat)
    (hoccS : occursAt tokenStart readme i)
    (hoccE : occursAt tokenEnd readme (i + tokenStart.length))
    (huniqS : ∀ t, t < readme.length → occursAt tokenStart readme t → t = i)
    (huniqE : ∀ t, t < readme.length → occursAt tokenEnd readme t →
      t = i + tokenStart.length)
    (exportedTypes exportedFunctions : List Entry) :
    updateReadme readme exportedTypes exportedFunctions = (readme, false) := by
  have h27 : 0 < tokenStart.length := by decide
  have h25 : 0 < tokenEnd.length := by decide
  have hff : findFirst tokenStart readme = some i := by
    apply findFirst_of_least hoccS
    intro t ht hocct
    have hb := occursAt_length tokenStart_ne_nil hocct
    have := huniqS t (by omega) hocct
    omega
  have hfl : findLast tokenEnd readme = some (i + tokenStart.length) := by
    apply findLast_of_greatest tokenEnd_ne_nil hoccE
    intro t ht hocct
    have hb := occursAt_length tokenEnd_ne_nil hocct
    have := huniqE t (by omega) hocct
    omega
  have hrepl : replaceTokenRegion
      (apiTemplate exportedTypes exportedFunctions) readme = readme := by
    rw [replaceTokenRegion]
    simp only [hff, hfl]
    rw [if_neg (by omega)]
  simp [updateReadme, hrepl]

/-- **C10, witness.** The document `A` + start token + end token + `B`, with
non-empty catalogs. -/
theorem adjacent_markers_no_write_witness :
    updateReadme (('A' :: []) ++ tokenStart ++ tokenEnd ++ ('B' :: []))
        [("a", "b", "c")] [("d", "e", "f")] =
      ((('A' :: []) ++ tokenStart ++ tokenEnd ++ ('B' :: [])), false) :=
  adjacent_markers_no_write _ 1 (by decide) (by decide)
    (by decide) (by decide) [("a", "b", "c")] [("d", "e", "f")]

/-! ## Claim C9 -/

/-- **C9.** For a document `pre ++ START ++ mid ++ END ++ post` containing
exactly one start marker and exactly one end marker, with a non-empty
region `mid` strictly between them, the merge replaces only that region:
both markers survive with one blank line adjacent to each, and the text
before the start marker and after the end marker is byte-for-byte the
input's. -/
theorem merge_frame (pre mid post : List Char)
    (exportedTypes exportedFunctions : List Entry)
    (hmid : mid ≠ [])
    (huniqS : ∀ t, t < (pre ++ tokenStart ++ mid ++ tokenEnd ++ post).length →
      occursAt tokenStart (pre ++ tokenStart ++ mid ++ tokenEnd ++ post) t →
      t = pre.length)
    (huniqE : ∀ t, t < (pre ++ tokenStart ++ mid ++ tokenEnd ++ post).length →
      occursAt tokenEnd (pre ++ tokenStart ++ mid ++ tokenEnd ++ post) t →
      t = pre.length + tokenStart.length + mid.length) :
    ∃ x, (updateReadme (pre ++ tokenStart ++ mid ++ tokenEnd ++ post)
        exportedTypes exportedFunctions).1 =
      pre ++ tokenStart ++ nl2 ++ x ++ nl2 ++ tokenEnd ++ post := by
  have h27 : 0 < tokenStart.length := by decide
  have h25 : 0 < tokenEnd.length := by decide
  have hdoc1 : pre ++ tokenStart ++ mid ++ tokenEnd ++ post =
      pre ++ (tokenStart ++ (mid ++ (tokenEnd ++ post))) := by
    simp [List.append_assoc]
  have hdoc2 : pre ++ tokenStart ++ mid ++ tokenEnd ++ post =
      (pre ++ tokenStart ++ mid) ++ (tokenEnd ++ post) := by
    simp [List.append_assoc]
  have hoccS : occursAt tokenStart (pre ++ tokenStart ++ mid ++ tokenEnd ++ post)
      pre.length := by
    rw [occursAt, hdoc1, List.drop_left]
    exact List.prefix_append _ _
  have hoccE : occursAt tokenEnd (pre ++ tokenStart ++ mid ++ tokenEnd ++ post)
      (pre.length + tokenStart.length + mid.length) := by
    have hl : (pre ++ tokenStart ++ mid).length =
        pre.length + tokenStart.length + mid.length := by
      simp only [List.length_append]
    rw [occursAt, hdoc2, ← hl, List.drop_left]
    exact List.prefix_append _ _
  have hff : findFirst tokenStart (pre ++ tokenStart ++ mid ++ tokenEnd ++ post) =
      some pre.length := by
    apply findFirst_of_least hoccS
    intro t ht hocct
    have hb := occursAt_length tokenStart_ne_nil hocct
    have := huniqS t (by omega) hocct
    omega
  have hfl : findLast tokenEnd (pre ++ tokenStart ++ mid ++ tokenEnd ++ post) =
      some (pre.length + tokenStart.length + mid.length) := by
    apply findLast_of_greatest tokenEnd_ne_nil hoccE
    intro t ht hocct
    have hb := occursAt_length tokenEnd_ne_nil hocct
    have := huniqE t (by omega) hocct
    omega
  have hmidpos : 0 < mid.length := List.length_pos.mpr hmid
  -- the substituted template keeps its marker-and-padding frame
  have htmpl : apiTemplate exportedTypes exportedFunctions =
      (tokenStart ++ nl2) ++
        (joinTables (typesTable exportedTypes) (functionsTable exportedFunctions) ++
          (nl2 ++ tokenEnd)) := by
    simp [apiTemplate, List.append_assoc]
  obtain ⟨x, hx⟩ := getSubstitution_frame
    ((((pre ++ tokenStart ++ mid ++ tokenEnd ++ post).drop pre.length)).take
      (pre.length + tokenStart.length + mid.length + tokenEnd.length - pre.length))
    ((pre ++ tokenStart ++ mid ++ tokenEnd ++ post).take pre.length)
    ((pre ++ tokenStart ++ mid ++ tokenEnd ++ post).drop
      (pre.length + tokenStart.length + mid.length + tokenEnd.length))
    (((pre ++ tokenStart ++ mid ++ tokenEnd ++ post).drop
        (pre.length + tokenStart.length)).take
      (pre.length + tokenStart.length + mid.length - (pre.length + tokenStart.length)))
    (joinTables (typesTable exportedTypes) (functionsTable exportedFunctions))
    (nl2 ++ tokenEnd) (by decide)
    (fun c w hcw => by
      have h2 : ('\n' : Char) :: '\n' :: tokenEnd = c :: w := hcw
      cases h2
      decide)
  have htake : (pre ++ tokenStart ++ mid ++ tokenEnd ++ post).take pre.length =
      pre := by
    rw [hdoc1, List.take_left]
  have hdrop : (pre ++ tokenStart ++ mid ++ tokenEnd ++ post).drop
      (pre.length + tokenStart.length + mid.length + tokenEnd.length) = post := by
    have hd3 : pre ++ tokenStart ++ mid ++ tokenEnd ++ post =
        (pre ++ tokenStart ++ mid ++ tokenEnd) ++ post := by
      simp [List.append_assoc]
    have hl : pre.length + tokenStart.length + mid.length + tokenEnd.length =
        (pre ++ tokenStart ++ mid ++ tokenEnd).length := by
      simp only [List.length_append]
    rw [hd3, hl, List.drop_left]
  refine ⟨x, ?_⟩
  have hrepl : (updateReadme (pre ++ tokenStart ++ mid ++ tokenEnd ++ post)
      exportedTypes exportedFunctions).1 =
      replaceTokenRegion (apiTemplate exportedTypes exportedFunctions)
        (pre ++ tokenStart ++ mid ++ tokenEnd ++ post) := rfl
  rw [hrepl, replaceTokenRegion]
  simp only [hff, hfl]
  rw [if_pos (by omega)]
  rw [htmpl]
  rw [getSubstitution_append_no_dollar _ (by decide)]
  rw [hx]
  rw [htake, hdrop]
  simp [List.append_assoc]

/-- **C9, witness.** The document `A` + start + `old` + end + `Z` with one
type entry. -/
theorem merge_frame_witness :
    ∃ x, (updateReadme
        (('A' :: []) ++ tokenStart ++ ("old").data ++ tokenEnd ++ ('Z' :: []))
        [("a", "b", "c")] []).1 =
      ('A' :: []) ++ tokenStart ++ nl2 ++ x ++ nl2 ++ tokenEnd ++ ('Z' :: []) :=
  merge_frame ('A' :: []) (("old").data) ('Z' :: []) [("a", "b", "c")] []
    (by decide) (by decide) (by decide)

/-! ## Claim C1 -/

set_option maxRecDepth 8000 in
/-- **C1, counterexample.** The claim quantifies over every pair of catalogs.
For the readme `START x END` and a type entry whose description is the
replacement-pattern escape `$&`, the document produced by one merge is not a
fixed point: JavaScript replacement-string substitution re-expands `$&` to
the (new, larger) matched text on the second run, which therefore writes
again. -/
theorem merge_not_idempotent_counterexample :
    ((updateReadme
        (updateReadme (tokenStart ++ 'x' :: tokenEnd) [("a", "b", "$&")] []).1
        [("a", "b", "$&")] []).1 ≠
      (updateReadme (tokenStart ++ 'x' :: tokenEnd) [("a", "b", "$&")] []).1) ∧
    (updateReadme
        (updateReadme (tokenStart ++ 'x' :: tokenEnd) [("a", "b", "$&")] []).1
        [("a", "b", "$&")] []).2 = true := by
  constructor
  · decide
  · decide

/-- **C1, amended.** Provided the rendered replacement template contains no
dollar character (JavaScript replacement-string escapes are then inert; the
dollar can only come from catalog text), merging is idempotent: the document
produced by the first merge is a fixed point of the merge, so the second run
performs no write; and in general the write happens exactly when the newly
produced text differs byte-for-byte from the existing text. -/
theorem merge_idempotent (readme : List Char)
    (exportedTypes exportedFunctions : List Entry)
    (hnd : '$' ∉ apiTemplate exportedTypes exportedFunctions) :
    (updateReadme (updateReadme readme exportedTypes exportedFunctions).1
        exportedTypes exportedFunctions).1 =
      (updateReadme readme exportedTypes exportedFunctions).1 ∧
    (updateReadme (updateReadme readme exportedTypes exportedFunctions).1
        exportedTypes exportedFunctions).2 = false ∧
    ∀ d : List Char,
      (updateReadme d exportedTypes exportedFunctions).2 = true ↔
        (updateReadme d exportedTypes exportedFunctions).1 ≠ d := by
  have htS : ∃ mid1, apiTemplate exportedTypes exportedFunctions =
      tokenStart ++ mid1 :=
    ⟨nl2 ++ joinTables (typesTable exportedTypes) (functionsTable exportedFunctions) ++
        nl2 ++ tokenEnd,
      by simp [apiTemplate, List.append_assoc]⟩
  have htE : ∃ mid2, apiTemplate exportedTypes exportedFunctions =
      mid2 ++ tokenEnd :=
    ⟨tokenStart ++ nl2 ++
        joinTables (typesTable exportedTypes) (functionsTable exportedFunctions) ++ nl2,
      by simp [apiTemplate, List.append_assoc]⟩
  have hlen : tokenStart.length + tokenEnd.length + 1 ≤
      (apiTemplate exportedTypes exportedFunctions).length := by
    have h27 : tokenStart.length = 27 := by decide
    have h25 : tokenEnd.length = 25 := by decide
    have h2 : nl2.length = 2 := by decide
    simp only [apiTemplate, List.length_append, h27, h25, h2]
    omega
  have hidem := replaceTokenRegion_idem
    (apiTemplate exportedTypes exportedFunctions) readme hnd htS htE hlen
  refine ⟨?_, ?_, ?_⟩
  · simpa [updateReadme] using hidem
  · simp [updateReadme, hidem]
  · intro d
    simp [updateReadme]

/-- **C1, witness.** The amended idempotence theorem at the readme
`START x END` with a dollar-free catalog. -/
theorem merge_idempotent_witness :
    (updateReadme (updateReadme (tokenStart ++ 'x' :: tokenEnd)
        [("a", "b", "c")] []).1 [("a", "b", "c")] []).1 =
      (updateReadme (tokenStart ++ 'x' :: tokenEnd) [("a", "b", "c")] []).1 :=
  (merge_idempotent (tokenStart ++ 'x' :: tokenEnd) [("a", "b", "c")] []
    (by decide)).1

/-! ## The extraction pipeline (source lines 179-241) -/

/-- Babel comment kinds. -/
inductive CommentType where
  | commentBlock
  | commentLine
deriving DecidableEq

/-- A leading comment: its kind and raw interior text. -/
structure Comment where
  type : CommentType
  value : String
deriving DecidableEq

/-- The declaration wrapped by a named export, as classified by
`getExportedName` (source lines 76-89): the three recognised kinds with
their possibly missing (or non-identifier, hence `Option`) name — functions
also carry their parameter list — and a catch-all for every other shape,
including a missing declaration. -/
inductive Declaration where
  | functionDeclaration (id : Option String) (params : List ParamNode)
  | tsInterfaceDeclaration (id : Option String)
  | tsTypeAliasDeclaration (id : Option String)
  | otherDeclaration

/-- `getExportedName` (source lines 76-89): the identifier of a function,
interface or type-alias declaration; `""` when the identifier is missing,
and for any other declaration shape. -/
def getExportedName : Declaration → String
  | .functionDeclaration (some name) _ => name
  | .functionDeclaration none _ => ""
  | .tsInterfaceDeclaration (some name) => name
  | .tsInterfaceDeclaration none => ""
  | .tsTypeAliasDeclaration (some name) => name
  | .tsTypeAliasDeclaration none => ""
  | .otherDeclaration => ""

/-- `isFunctionDeclaration` (source lines 208 and 232). -/
def Declaration.isFunction : Declaration → Bool
  | .functionDeclaration _ _ => true
  | _ => false

/-- A top-level statement: a named export with its declaration and leading
comments (`none` when Babel attaches no comment list), or anything else —
skipped by the `isExportNamedDeclaration` guard at source line 198. -/
inductive TopStatement where
  | exportNamedDeclaration (declaration : Declaration)
      (leadingComments : Option (List Comment))
  | otherStatement

/-- The backwards scan of `findLastBlockComment` (source lines 34-39): the
block comment closest to the end of the list. -/
def lastBlockComment : List Comment → Option Comment
  | [] => none
  | c :: rest =>
    match lastBlockComment rest with
    | some b => some b
    | none => if c.type = CommentType.commentBlock then some c else none

/-- `findLastBlockComment` (source lines 32-41). -/
def findLastBlockComment : Option (List Comment) → Option Comment
  | none => none
  | some comments => lastBlockComment comments

/-- A comment list in which every comment is a line comment has no last block
comment. -/
theorem lastBlockComment_eq_none {l : List Comment}
    (h : ∀ c ∈ l, c.type = CommentType.commentLine) :
    lastBlockComment l = none := by
  induction l with
  | nil => rfl
  | cons c rest ih =>
    have hr := ih (fun d hd => h d (by simp [hd]))
    have hc : c.type = CommentType.commentLine := h c (by simp)
    simp [lastBlockComment, hr, hc]

/-- A TSDoc documentation node: an excerpt node carrying document text, or any
other (structural) node; both with children. -/
inductive DocNode where
  | excerpt (content : String) (children : List DocNode)
  | structural (children : List DocNode)

mutual
/-- `renderDocNode` (source lines 95-107): an excerpt node contributes its own
text first, then every node contributes its children's renderings,
depth-first in document order. -/
def renderDocNode : DocNode → String
  | .excerpt content children => content ++ renderDocNodes children
  | .structural children => renderDocNodes children

def renderDocNodes : List DocNode → String
  | [] => ""
  | n :: ns => renderDocNode n ++ renderDocNodes ns
end

/-- The undocumented-export warning (source lines 218-223); `console.warn`
joins its arguments with single spaces. -/
def undocumentedWarning (file identifier : String) : String :=
  "WARN " ++ file ++ ": " ++ identifier ++ " is exported but undocumented"

/-- The display identifier (source lines 207-214): a function renders its
signature; every other declaration is shown by bare name. -/
def statementIdentifier (decl : Declaration) (name : String) :
    Except String String :=
  match decl with
  | .functionDeclaration _ params => functionIdentifier name params
  | _ => .ok name

/-- One iteration of the statement loop (source lines 197-237), parameterised
by the external TSDoc parser as `tsdocParse`, which models
`s => tsdocParser.parseString(s).docComment.summarySection`. Returns the
entries pushed onto `exportedFunctions` and `exportedTypes` and the warnings
printed, or the error thrown while rendering a signature. -/
def processStatement (tsdocParse : String → DocNode) (file category : String) :
    TopStatement → Except String (List Entry × List Entry × List String)
  | .otherStatement => .ok ([], [], [])
  | .exportNamedDeclaration decl comments =>
    let name := getExportedName decl
    if name = "" then .ok ([], [], [])
    else
      match statementIdentifier decl name with
      | .error e => .error e
      | .ok identifier =>
        match findLastBlockComment comments with
        | none => .ok ([], [], [undocumentedWarning file identifier])
        | some commentBlock =>
          let summary :=
            renderDocNode (tsdocParse ("/*" ++ commentBlock.value ++ "*/"))
          let description := String.mk (extractBrief summary.data)
          if decl.isFunction then
            .ok ([(category, identifier, description)], [], [])
          else .ok ([], [(category, identifier, description)], [])

/-- A source file as consumed by the pipeline: its path together with the
result of reading it and parsing it with the external Babel parser
(`Except.error` models a thrown syntax error). -/
structure SourceFile where
  path : String
  parsed : Except String (List TopStatement)

/-- `path.basename(file, ".ts")` (source line 189): the last path segment,
with a trailing `.ts` removed. -/
def baseNameTs (p : String) : String :=
  let base := (p.splitOn "/").getLastD ""
  if base.endsWith ".ts" then base.dropRight 3 else base

/-- The statement loop of one file (source lines 197-237): contributions are
concatenated in statement order; a thrown error aborts the rest. -/
def processStatements (tsdocParse : String → DocNode) (file category : String) :
    List TopStatement → Except String (List Entry × List Entry × List String)
  | [] => .ok ([], [], [])
  | stmt :: rest => do
    let (fns, tys, ws) ← processStatement tsdocParse file category stmt
    let (fns2, tys2, ws2) ← processStatements tsdocParse file category rest
    pure (fns ++ fns2, tys ++ tys2, ws ++ ws2)

/-- The file loop (source lines 188-238): parse each file, process its
statements, concatenate contributions in file order; any thrown error aborts
the whole run. -/
def processFiles (tsdocParse : String → DocNode) :
    List SourceFile → Except String (List Entry × List Entry × List String)
  | [] => .ok ([], [], [])
  | f :: rest => do
    let stmts ← f.parsed
    let (fns, tys, ws) ←
      processStatements tsdocParse f.path (baseNameTs f.path) stmts
    let (fns2, tys2, ws2) := ← processFiles tsdocParse rest
    pure (fns ++ fns2, tys ++ tys2, ws ++ ws2)

/-- Catalog construction over all source files. -/
def buildCatalogs (tsdocParse : String → DocNode) (files : List SourceFile) :
    Except String (List Entry × List Entry × List String) :=
  processFiles tsdocParse files

/-- `updateApiReadme` (source lines 179-241): build both catalogs over every
source file, then — only then — read and merge the readme. The result
carries the new readme text, whether it is written, and the warnings
printed along the way. -/
def updateApiReadme (tsdocParse : String → DocNode) (files : List SourceFile)
    (readme : List Char) : Except String (List Char × Bool × List String) := do
  let (exportedFunctions, exportedTypes, warnings) ←
    buildCatalogs tsdocParse files
  let (updated, written) := updateReadme readme exportedTypes exportedFunctions
  pure (updated, written, warnings)

theorem except_bind_error {α β : Type} (e : String)
    (f : α → Except String β) : (Except.error e >>= f) = Except.error e := rfl

theorem except_bind_ok {α β : Type} (a : α) (f : α → Except String β) :
    (Except.ok a >>= f) = f a := rfl

theorem except_map_error {α β : Type} (e : String) (f : α → β) :
    (f <$> (Except.error e : Except String α)) = Except.error e := rfl

theorem except_map_ok {α β : Type} (a : α) (f : α → β) :
    (f <$> (Except.ok a : Except String α)) = Except.ok (f a) := rfl

/-- A statement whose processing throws makes the whole statement loop
throw. -/
theorem processStatements_error {tsdocParse : String → DocNode}
    {file category : String} {stmts : List TopStatement}
    (h : ∃ s ∈ stmts, ∃ e,
      processStatement tsdocParse file category s = .error e) :
    ∃ e, processStatements tsdocParse file category stmts = .error e := by
  induction stmts with
  | nil => simp at h
  | cons stmt rest ih =>
    obtain ⟨s, hs, e, he⟩ := h
    cases hstep : processStatement tsdocParse file category stmt with
    | error e2 => exact ⟨e2, by simp [processStatements, hstep, except_bind_error, except_bind_ok, except_map_error]⟩
    | ok r =>
      rcases List.mem_cons.mp hs with rfl | hmem
      · rw [hstep] at he
        cases he
      · obtain ⟨e3, he3⟩ := ih ⟨s, hmem, e, he⟩
        exact ⟨e3, by simp [processStatements, hstep, he3, except_bind_error, except_bind_ok, except_map_error]⟩

/-- A file that fails to parse, or whose statement loop throws, makes the
whole file loop throw. -/
theorem processFiles_error {tsdocParse : String → DocNode}
    {files : List SourceFile}
    (h : ∃ f ∈ files, (∃ e, f.parsed = .error e) ∨
      ∃ stmts, f.parsed = .ok stmts ∧ ∃ s ∈ stmts, ∃ e,
        processStatement tsdocParse f.path (baseNameTs f.path) s = .error e) :
    ∃ e, processFiles tsdocParse files = .error e := by
  induction files with
  | nil => simp at h
  | cons f rest ih =>
    obtain ⟨f2, hf2, hcase⟩ := h
    cases hp : f.parsed with
    | error e => exact ⟨e, by simp [processFiles, hp, except_bind_error, except_bind_ok, except_map_error]⟩
    | ok stmts =>
      cases hps : processStatements tsdocParse f.path (baseNameTs f.path) stmts with
      | error e2 => exact ⟨e2, by simp [processFiles, hp, hps, except_bind_error, except_bind_ok, except_map_error]⟩
      | ok r =>
        rcases List.mem_cons.mp hf2 with rfl | hmem
        · exfalso
          rcases hcase with ⟨e, he⟩ | ⟨stmts2, hok, hs⟩
          · rw [hp] at he
            cases he
          · rw [hp] at hok
            cases hok
            obtain ⟨e3, he3⟩ := processStatements_error hs
            rw [hps] at he3
            cases he3
        · obtain ⟨e4, he4⟩ := ih ⟨f2, hmem, hcase⟩
          exact ⟨e4, by simp [processFiles, hp, hps, he4, except_bind_error, except_bind_ok, except_map_error]⟩

/-! ## Claim C7 -/

/-- **C7.** For a named export whose display identifier renders successfully:
if the leading comments contain no block-style comment (including the case
of no comments at all), processing the statement adds no entry to either
catalog and emits exactly one warning, whose text contains the source file
path and the display identifier, and it succeeds — the run continues (first
conjunct). If instead a block comment is found, the statement contributes
exactly one entry carrying some — possibly blank — description and no
warning, whatever the external TSDoc parse returns: only a wholly absent
block comment triggers the warning-and-skip path (second conjunct). -/
theorem undocumented_export_policy (tsdocParse : String → DocNode)
    (file category : String) (decl : Declaration)
    (comments : Option (List Comment)) (identifier : String)
    (hname : getExportedName decl ≠ "")
    (hid : statementIdentifier decl (getExportedName decl) = .ok identifier) :
    ((∀ c ∈ comments.getD [], c.type = CommentType.commentLine) →
      processStatement tsdocParse file category
          (.exportNamedDeclaration decl comments) =
        .ok ([], [], [undocumentedWarning file identifier]) ∧
      file.data <:+: (undocumentedWarning file identifier).data ∧
      identifier.data <:+: (undocumentedWarning file identifier).data) ∧
    (∀ cb, findLastBlockComment comments = some cb →
      ∃ description,
        processStatement tsdocParse file category
            (.exportNamedDeclaration decl comments) =
          if decl.isFunction then
            .ok ([(category, identifier, description)], [], [])
          else .ok ([], [(category, identifier, description)], [])) := by
  constructor
  · intro hcomments
    have hnone : findLastBlockComment comments = none := by
      cases comments with
      | none => rfl
      | some l =>
        have := lastBlockComment_eq_none (l := l) (by simpa using hcomments)
        simpa [findLastBlockComment] using this
    refine ⟨?_, ?_, ?_⟩
    · simp only [processStatement]
      rw [if_neg hname]
      simp only [hid, hnone]
    · refine ⟨("WARN ").data,
        ((": ").data ++ identifier.data ++ (" is exported but undocumented").data), ?_⟩
      simp [undocumentedWarning, String.data_append, List.append_assoc]
    · refine ⟨(("WARN ").data ++ file.data ++ (": ").data),
        (" is exported but undocumented").data, ?_⟩
      simp [undocumentedWarning, String.data_append, List.append_assoc]
  · intro cb hcb
    refine ⟨String.mk (extractBrief
      (renderDocNode (tsdocParse ("/*" ++ cb.value ++ "*/"))).data), ?_⟩
    simp only [processStatement]
    rw [if_neg hname]
    simp only [hid, hcb]

/-- **C7, witness.** An exported function `f()` preceded only by a line
comment: one warning, no entry. -/
theorem undocumented_export_policy_witness :
    processStatement (fun _ => DocNode.structural []) "src/a.ts" "a"
        (.exportNamedDeclaration (.functionDeclaration (some "f") [])
          (some [⟨CommentType.commentLine, " x"⟩])) =
      .ok ([], [], [undocumentedWarning "src/a.ts" "`f()`"]) :=
  (((undocumented_export_policy (fun _ => DocNode.structural []) "src/a.ts" "a"
      (.functionDeclaration (some "f") [])
      (some [⟨CommentType.commentLine, " x"⟩]) "`f()`"
      (by decide) rfl).1 (by decide)).1)

/-! ## Claim C8 -/

/-- **C8.** A syntax error in any source file, or a signature-rendering error
in any of its statements, aborts the whole run with an error: no document
text is produced at all, so the readme — read and merged only inside
`updateReadme`, after catalog construction — is never partially rewritten
(first conjunct). Conversely, a run that produces an output did build the
catalogs over all source files without error first, and its output is
exactly the merge of those full catalogs against the readme (second
conjunct). -/
theorem fatal_errors_abort (tsdocParse : String → DocNode)
    (files : List SourceFile) (readme : List Char) :
    ((∃ f ∈ files, (∃ e, f.parsed = .error e) ∨
        ∃ stmts, f.parsed = .ok stmts ∧ ∃ s ∈ stmts, ∃ e,
          processStatement tsdocParse f.path (baseNameTs f.path) s = .error e) →
      ∃ e, updateApiReadme tsdocParse files readme = .error e) ∧
    (∀ out, updateApiReadme tsdocParse files readme = .ok out →
      ∃ fns tys ws, buildCatalogs tsdocParse files = .ok (fns, tys, ws) ∧
        out = ((updateReadme readme tys fns).1,
          (updateReadme readme tys fns).2, ws)) := by
  constructor
  · intro h
    obtain ⟨e, he⟩ := processFiles_error h
    exact ⟨e, by simp [updateApiReadme, buildCatalogs, he, except_bind_error, except_bind_ok, except_map_error]⟩
  · intro out hout
    cases hb : buildCatalogs tsdocParse files with
    | error e =>
      rw [updateApiReadme] at hout
      simp [hb] at hout
    | ok r =>
      obtain ⟨fns, tys, ws⟩ := r
      refine ⟨fns, tys, ws, rfl, ?_⟩
      rw [updateApiReadme] at hout
      simp [hb] at hout
      exact hout.symm

/-- **C8, witness.** A single file whose parse throws a syntax error: the run
aborts with an error. -/
theorem fatal_errors_abort_witness :
    ∃ e, updateApiReadme (fun _ => DocNode.structural [])
        [⟨"a.ts", .error "SyntaxError: unexpected token"⟩] [] = .error e :=
  (fatal_errors_abort (fun _ => DocNode.structural [])
      [⟨"a.ts", .error "SyntaxError: unexpected token"⟩] []).1
    ⟨⟨"a.ts", .error "SyntaxError: unexpected token"⟩, by simp,
      Or.inl ⟨"SyntaxError: unexpected token", rfl⟩⟩

end UpdateApiReadme
